import Mathlib

/-!
Shallow embedding of `prompting/validators/reward/diversity.py`
(DiversityRewardModel) and proofs about it.

Tensors of embedding vectors are modelled as lists of rows (`List Vec`,
`Vec = List ℝ`); the float arithmetic of the source is modelled exactly
over `ℝ`.  The embedding model itself (tokenizer + transformer,
`get_embeddings`) is the external collaborator of the spec and enters
only as an opaque-to-us function parameter `embed`.
-/

namespace Diversity

/-- An embedding vector: one row of an embedding matrix. -/
abbrev Vec := List ℝ

/-- Dot product of two vectors (row-by-row product used by the cosine
similarity). -/
noncomputable def dot (x y : Vec) : ℝ :=
  (List.zipWith (· * ·) x y).sum

/-- Cosine similarity of two vectors: dot product divided by the product of
Euclidean norms.  Models one entry of
`torchmetrics.functional.pairwise_cosine_similarity`. -/
noncomputable def cos_sim (x y : Vec) : ℝ :=
  dot x y / (Real.sqrt (dot x x) * Real.sqrt (dot y y))

/-- The pairwise cosine-similarity matrix between the rows of `xs` and the
rows of `ys`; entry `(i, j)` is `cos_sim xs[i] ys[j]`.  Models
`pairwise_cosine_similarity(xs, ys)` (diversity.py lines 134-136, 152). -/
noncomputable def pairwise_cosine_similarity (xs ys : List Vec) : List (List ℝ) :=
  xs.map (fun x => ys.map (fun y => cos_sim x y))

/-- The `k`-th smallest entry of a list (`k` is 1-based): models
`torch.topk(row, k, largest=False)[0][-1]`, i.e. sort ascending and take the
value at rank `k - 1`.  The source only evaluates this with
`1 ≤ k ≤ row length`, where the `getD` default is never used. -/
noncomputable def kth_smallest (l : List ℝ) (k : ℕ) : ℝ :=
  (l.insertionSort (· ≤ ·)).getD (k - 1) 0

/-- `self.reward_bottom_k = 2` (diversity.py line 73). -/
def reward_bottom_k : ℕ := 2

/-- `self.history_reward_bottom_k = 2` (diversity.py line 74). -/
def history_reward_bottom_k : ℕ := 2

/-- `self.history_range = (500, 15500)` (diversity.py line 76). -/
def history_range : ℕ × ℕ := (500, 15500)

/-- `self.boundary = 0.5` (diversity.py line 77). -/
noncomputable def boundary : ℝ := 0.5

/-- Historic regulariser (diversity.py line 125):
`1 / (1 + exp(-1000 * r + 50))`. -/
noncomputable def regularise_historic (r : ℝ) : ℝ :=
  1 / (1 + Real.exp (-1000 * r + 50))

/-- Batch regulariser (diversity.py line 149):
`1 / (1 + exp(-40 * r + 4))`. -/
noncomputable def regularise_batch (r : ℝ) : ℝ :=
  1 / (1 + Real.exp (-40 * r + 4))

/-- The loop body of `unique` (diversity.py lines 112-115): walk the batch
keeping `last_emb`, appending each vector that differs from the previous one.
`last_emb` is updated to the current vector in both branches, exactly as in
the source. -/
noncomputable def unique_loop (last : Vec) : List Vec → List Vec
  | [] => []
  | e :: rest => if e = last then unique_loop e rest else e :: unique_loop e rest

/-- `unique` (diversity.py lines 109-116): starts from `[embeddings[0]]` with
`last_emb = embeddings[0]`, then runs the loop over the whole batch (the
first iteration compares `embeddings[0]` to itself and skips it).  On an
empty input the source raises `IndexError`; that unreachable case (the caller
guarantees a non-empty batch) is modelled as `[]`. -/
noncomputable def unique : List Vec → List Vec
  | [] => []
  | e :: rest => e :: unique_loop e rest

/-- `update_historic_embeddings` (diversity.py lines 108-120): deduplicate
the batch with `unique`, concatenate onto the store, and keep only the last
`history_range[1]` rows (`historic_embeddings[-self.history_range[1]:, :]`).
Takes the current store and returns the new one (the source mutates
`self.historic_embeddings`). -/
noncomputable def update_historic_embeddings (hist : List Vec) (embeddings : List Vec) :
    List Vec :=
  let embeddings_unique := unique embeddings
  let historic_embeddings := hist ++ embeddings_unique
  historic_embeddings.drop (historic_embeddings.length - history_range.2)

/-- `get_historic_rewards` (diversity.py lines 122-144).  Returns `none`
(Python `None`) when the store holds fewer than
`history_range[0] + history_reward_bottom_k` rows; otherwise the pairwise
cosine similarity of the batch against `historic_embeddings[history_range[0]:]`
is reduced per row to its `bottom_k`-th smallest `1 - |similarity|` value,
with `bottom_k = min(history_reward_bottom_k, len(similarity))` (`len` of a
2-D tensor is its number of rows), and regularised. -/
noncomputable def get_historic_rewards (hist : List Vec) (embeddings : List Vec) :
    Option (List ℝ) :=
  if hist.length < history_range.1 + history_reward_bottom_k then none
  else
    let similarity := pairwise_cosine_similarity embeddings (hist.drop history_range.1)
    let bottom_k := min history_reward_bottom_k similarity.length
    let rewards := similarity.map (fun row => kth_smallest (row.map (fun s => 1 - |s|)) bottom_k)
    some (rewards.map regularise_historic)

/-- `get_batch_rewards` (diversity.py lines 146-160): pairwise cosine
similarity of the batch against itself, reduced per row to the
`bottom_k`-th smallest `1 - |similarity|` value with
`bottom_k = min(reward_bottom_k, len(similarity))`, then regularised. -/
noncomputable def get_batch_rewards (embeddings : List Vec) : List ℝ :=
  let similarity := pairwise_cosine_similarity embeddings embeddings
  let bottom_k := min reward_bottom_k similarity.length
  let rewards := similarity.map (fun row => kth_smallest (row.map (fun s => 1 - |s|)) bottom_k)
  rewards.map regularise_batch

/-- `DiversityRewardEvent` (diversity.py lines 51-54): combined reward,
batch component, and optional historic component (`None` when history is
insufficient). -/
structure DiversityRewardEvent where
  reward : ℝ
  batch : ℝ
  historic : Option ℝ

/-- The value returned by `get_rewards` (diversity.py lines 162-190): on an
empty completions list the source returns the tuple
`(torch.tensor([]), None)` (line 167), otherwise a list of
`DiversityRewardEvent`. -/
inductive GetRewardsReturn where
  | emptyPair
  | events (l : List DiversityRewardEvent)

/-- `get_rewards` (diversity.py lines 162-190).  `embed` models
`self.get_embeddings` (the external embedding model); `hist` is
`self.historic_embeddings` on entry and the second component of the result
is its value after the call (the source mutates it in
`update_historic_embeddings`, line 178, after both scoring passes). -/
noncomputable def get_rewards (hist : List Vec) (embed : List String → List Vec)
    (completions : List String) : GetRewardsReturn × List Vec :=
  if completions.length = 0 then (GetRewardsReturn.emptyPair, hist)
  else
    let embeddings := embed completions
    let batch_rewards := get_batch_rewards embeddings
    let historic_rewards := get_historic_rewards hist embeddings
    let hist' := update_historic_embeddings hist embeddings
    match historic_rewards with
    | some hr =>
        (GetRewardsReturn.events
          (List.zipWith (fun b h => ⟨b * h, b, some h⟩) batch_rewards hr), hist')
    | none =>
        (GetRewardsReturn.events
          (batch_rewards.map (fun b => ⟨b, b, none⟩)), hist')

/-- `normalize_rewards` (diversity.py lines 192-195):
`(raw_rewards > self.boundary).float()`, i.e. elementwise `1.0` when the
reward is strictly above the boundary and `0.0` otherwise. -/
noncomputable def normalize_rewards (raw_rewards : List ℝ) : List ℝ :=
  raw_rewards.map (fun r => if boundary < r then 1 else 0)

/-- The spec's shared primitive `bottom_k_dissimilarity`, with the clamp the
code actually performs: for each row of `M` the `k`-th smallest `1 - |s|`
value, where `k = min k_configured (number of rows of M)` (the code's
`min(bottom_k, len(similarity))`). -/
noncomputable def bottom_k_dissimilarity (M : List (List ℝ)) (k_configured : ℕ) : List ℝ :=
  M.map (fun row => kth_smallest (row.map (fun s => 1 - |s|)) (min k_configured M.length))

/-- Claim C2's version of the primitive, following the claim's words: the
rank is clamped to the number of COLUMNS of the matrix,
`k = min k_configured (number of columns)`. -/
noncomputable def bottom_k_dissimilarity_cols (M : List (List ℝ)) (k_configured : ℕ) : List ℝ :=
  M.map (fun row => kth_smallest (row.map (fun s => 1 - |s|)) (min k_configured row.length))

/-- Claim C1's version of `get_historic_rewards`, following the claim's
words: the comparison window excludes the most recent `history_range.1`
entries of the store, i.e. it is `hist.take (hist.length - history_range.1)`
(the oldest, "settled" part).  Everything else is as in the code. -/
noncomputable def get_historic_rewards_recent_excluded (hist : List Vec)
    (embeddings : List Vec) : Option (List ℝ) :=
  if hist.length < history_range.1 + history_reward_bottom_k then none
  else
    let similarity :=
      pairwise_cosine_similarity embeddings (hist.take (hist.length - history_range.1))
    let bottom_k := min history_reward_bottom_k similarity.length
    let rewards := similarity.map (fun row => kth_smallest (row.map (fun s => 1 - |s|)) bottom_k)
    some (rewards.map regularise_historic)

/-- Claim C2's version of `get_historic_rewards`: identical to the code
except that the bottom-k rank is clamped to the column count of the
similarity matrix, as the claim states. -/
noncomputable def get_historic_rewards_col_clamp (hist : List Vec)
    (embeddings : List Vec) : Option (List ℝ) :=
  if hist.length < history_range.1 + history_reward_bottom_k then none
  else
    some ((bottom_k_dissimilarity_cols
      (pairwise_cosine_similarity embeddings (hist.drop history_range.1))
      history_reward_bottom_k).map regularise_historic)

/-- Concrete unit vector `[1, 0]`, used as input in witnesses and
counterexamples. -/
noncomputable def e₁ : Vec := [1, 0]

/-- Concrete unit vector `[0, 1]`, orthogonal to `e₁`. -/
noncomputable def e₂ : Vec := [0, 1]

theorem drop500_replicate (u : Vec) (l : List Vec) :
    (List.replicate 500 u ++ l).drop 500 = l := by
  have h := List.drop_left (List.replicate 500 u) l
  rwa [List.length_replicate] at h

theorem hist_len_502 (u a b : Vec) :
    (List.replicate 500 u ++ [a, b]).length = 502 := by
  rw [List.length_append, List.length_replicate]
  rfl

theorem regularise_historic_inj {a b : ℝ}
    (h : regularise_historic a = regularise_historic b) : a = b := by
  rw [regularise_historic, regularise_historic] at h
  have ha : (0:ℝ) < 1 + Real.exp (-1000 * a + 50) := by positivity
  have hb : (0:ℝ) < 1 + Real.exp (-1000 * b + 50) := by positivity
  rw [div_eq_div_iff ha.ne' hb.ne'] at h
  have hexp : Real.exp (-1000 * a + 50) = Real.exp (-1000 * b + 50) := by linarith
  have := Real.exp_eq_exp.mp hexp
  linarith

theorem regularise_historic_one_ne_zero :
    regularise_historic 1 ≠ regularise_historic 0 := by
  intro h
  have := regularise_historic_inj h
  norm_num at this

theorem historic_eval_uu :
    get_historic_rewards (List.replicate 500 e₁ ++ [e₁, e₁]) [e₂] =
      some [regularise_historic 1] := by
  rw [get_historic_rewards, if_neg (by rw [hist_len_502]; norm_num [history_range, history_reward_bottom_k])]
  rw [show history_range.1 = 500 from rfl, drop500_replicate]
  norm_num [pairwise_cosine_similarity, cos_sim, dot, e₁, e₂, kth_smallest,
    history_reward_bottom_k]

theorem historic_eval_uv :
    get_historic_rewards (List.replicate 500 e₁ ++ [e₁, e₂]) [e₂] =
      some [regularise_historic 0] := by
  rw [get_historic_rewards, if_neg (by rw [hist_len_502]; norm_num [history_range, history_reward_bottom_k])]
  rw [show history_range.1 = 500 from rfl, drop500_replicate]
  norm_num [pairwise_cosine_similarity, cos_sim, dot, e₁, e₂, kth_smallest,
    history_reward_bottom_k, Real.sqrt_one]

theorem historic_recent_excluded_eval :
    get_historic_rewards_recent_excluded (List.replicate 500 e₁ ++ [e₁, e₂]) [e₂] =
      some [regularise_historic 1] := by
  rw [get_historic_rewards_recent_excluded,
    if_neg (by rw [hist_len_502]; norm_num [history_range, history_reward_bottom_k])]
  rw [hist_len_502, show (502:ℕ) - history_range.1 = 2 from rfl]
  rw [List.take_append_of_le_length (by rw [List.length_replicate]; omega),
    List.take_replicate, show (2:ℕ) ⊓ 500 = 2 by norm_num]
  norm_num [pairwise_cosine_similarity, cos_sim, dot, e₁, e₂, kth_smallest,
    history_reward_bottom_k, List.replicate]

theorem historic_col_clamp_eval :
    get_historic_rewards_col_clamp (List.replicate 500 e₁ ++ [e₁, e₂]) [e₂] =
      some [regularise_historic 1] := by
  rw [get_historic_rewards_col_clamp,
    if_neg (by rw [hist_len_502]; norm_num [history_range, history_reward_bottom_k])]
  rw [show history_range.1 = 500 from rfl, drop500_replicate]
  norm_num [bottom_k_dissimilarity_cols, pairwise_cosine_similarity, cos_sim, dot,
    e₁, e₂, kth_smallest, history_reward_bottom_k, Real.sqrt_one]

/-- C1: the claim says the historic similarity window excludes the most
recent 500 entries of the store.  It is false on the code: on a concrete
502-entry store the code's result differs from the claimed-window result,
and the code's result changes when only the most recently appended entry of
the store changes (the two stores below agree outside their most recent 500
entries), so the window does include the recently appended tail. -/
theorem c1_counterexample :
    get_historic_rewards (List.replicate 500 e₁ ++ [e₁, e₂]) [e₂] ≠
      get_historic_rewards_recent_excluded (List.replicate 500 e₁ ++ [e₁, e₂]) [e₂] ∧
    get_historic_rewards (List.replicate 500 e₁ ++ [e₁, e₁]) [e₂] ≠
      get_historic_rewards (List.replicate 500 e₁ ++ [e₁, e₂]) [e₂] ∧
    (List.replicate 500 e₁ ++ [e₁, e₁]).take 2 =
      (List.replicate 500 e₁ ++ [e₁, e₂]).take 2 := by
  refine ⟨?_, ?_, ?_⟩
  · rw [historic_eval_uv, historic_recent_excluded_eval]
    intro h
    exact regularise_historic_one_ne_zero (by simpa using h.symm)
  · rw [historic_eval_uu, historic_eval_uv]
    intro h
    exact regularise_historic_one_ne_zero (by simpa using h)
  · rw [List.take_append_of_le_length (by rw [List.length_replicate]; omega),
      List.take_append_of_le_length (by rw [List.length_replicate]; omega)]

/-- C1 (amended): the historic similarity window is
`hist[history_range.1:]`, the store with its OLDEST 500 entries excluded —
so the historic reward depends only on that newer part of the store, which
includes the most recently appended entries. -/
theorem c1_amended (h₁ h₂ : List Vec) (emb : List Vec)
    (hdrop : h₁.drop history_range.1 = h₂.drop history_range.1)
    (hl₁ : history_range.1 + history_reward_bottom_k ≤ h₁.length)
    (hl₂ : history_range.1 + history_reward_bottom_k ≤ h₂.length) :
    get_historic_rewards h₁ emb = get_historic_rewards h₂ emb := by
  rw [get_historic_rewards, get_historic_rewards, if_neg (by omega), if_neg (by omega), hdrop]

/-- Witness for `c1_amended`: two concrete 502-entry stores that agree from
index 500 on but differ in their first 500 entries get identical historic
rewards. -/
theorem c1_amended_witness :
    get_historic_rewards (List.replicate 500 e₁ ++ [e₁, e₂]) [e₁] =
      get_historic_rewards (List.replicate 500 e₂ ++ [e₁, e₂]) [e₁] :=
  c1_amended _ _ _
    (by rw [show history_range.1 = 500 from rfl, drop500_replicate, drop500_replicate])
    (by rw [hist_len_502]; norm_num [history_range, history_reward_bottom_k])
    (by rw [hist_len_502]; norm_num [history_range, history_reward_bottom_k])

/-- C2: the claim says the bottom-k rank is clamped to the COLUMN count of
the similarity matrix.  False on the code: `len(similarity)` is the row
count, and on a concrete store with a 1-row, 2-column historic similarity
matrix the code's result differs from the column-clamped one. -/
theorem c2_counterexample :
    get_historic_rewards (List.replicate 500 e₁ ++ [e₁, e₂]) [e₂] ≠
      get_historic_rewards_col_clamp (List.replicate 500 e₁ ++ [e₁, e₂]) [e₂] := by
  rw [historic_eval_uv, historic_col_clamp_eval]
  intro h
  exact regularise_historic_one_ne_zero (by simpa using h.symm)

/-- C2 (amended): the bottom-k rank is clamped to the number of ROWS of the
similarity matrix (the code's `min(bottom_k, len(similarity))`); both
scoring functions compute exactly the row-clamped bottom-k dissimilarity
followed by their regulariser.  (For the batch matrix rows = columns, so
the claim's clamp happens to agree there.) -/
theorem c2_amended (hist : List Vec) (emb : List Vec) :
    (history_range.1 + history_reward_bottom_k ≤ hist.length →
      get_historic_rewards hist emb =
        some ((bottom_k_dissimilarity
          (pairwise_cosine_similarity emb (hist.drop history_range.1))
          history_reward_bottom_k).map regularise_historic)) ∧
    get_batch_rewards emb =
      (bottom_k_dissimilarity (pairwise_cosine_similarity emb emb)
        reward_bottom_k).map regularise_batch := by
  constructor
  · intro h
    rw [get_historic_rewards, if_neg (by omega)]
    rfl
  · rfl

/-- Witness for `c2_amended` at a concrete 502-entry store and singleton
batch. -/
theorem c2_amended_witness :
    get_historic_rewards (List.replicate 500 e₁ ++ [e₁, e₂]) [e₂] =
      some ((bottom_k_dissimilarity
        (pairwise_cosine_similarity [e₂]
          ((List.replicate 500 e₁ ++ [e₁, e₂]).drop history_range.1))
        history_reward_bottom_k).map regularise_historic) ∧
    get_batch_rewards [e₂] =
      (bottom_k_dissimilarity (pairwise_cosine_similarity [e₂] [e₂])
        reward_bottom_k).map regularise_batch :=
  ⟨(c2_amended (List.replicate 500 e₁ ++ [e₁, e₂]) [e₂]).1
      (by rw [hist_len_502]; norm_num [history_range, history_reward_bottom_k]),
   (c2_amended (List.replicate 500 e₁ ++ [e₁, e₂]) [e₂]).2⟩

/-- C5: on an empty completions list the source returns early — before the
embedding call and before the history update — but it returns the tuple
`(torch.tensor([]), None)` (line 167), not the empty list of
`DiversityRewardEvent` that its signature declares and the spec describes.
The history is unchanged and the result is independent of the embedder
(no embedding call), but the returned value is not an (empty) sequence of
reward records. -/
theorem c5_empty_completions (hist : List Vec) (embed embed2 : List String → List Vec) :
    get_rewards hist embed [] = (GetRewardsReturn.emptyPair, hist) ∧
    get_rewards hist embed [] = get_rewards hist embed2 [] ∧
    ∀ l : List DiversityRewardEvent, GetRewardsReturn.emptyPair ≠ GetRewardsReturn.events l := by
  refine ⟨rfl, rfl, ?_⟩
  intro l h
  exact GetRewardsReturn.noConfusion h

theorem update_le_cap (hist batch : List Vec) :
    (update_historic_embeddings hist batch).length ≤ history_range.2 := by
  show ((hist ++ unique batch).drop ((hist ++ unique batch).length - history_range.2)).length ≤
    history_range.2
  rw [List.length_drop]
  omega

theorem foldl_update_le (bs : List (List Vec)) :
    ∀ h0 : List Vec, h0.length ≤ history_range.2 →
      ((bs.foldl update_historic_embeddings h0)).length ≤ history_range.2 := by
  induction bs with
  | nil => intro h0 h; simpa using h
  | cons b bs ih =>
      intro h0 _
      rw [List.foldl_cons]
      exact ih _ (update_le_cap h0 b)

/-- C6: a single append never leaves more than `history_range.2 = 15500`
rows in the store; the post-append store is a suffix of
`old store ++ deduplicated batch` (so truncation drops the oldest entries
first and the retained entries keep their insertion order); its length is
exactly `min (old + new) capacity`; and any sequence of appends (modelled
by `foldl`) keeps the store within capacity. -/
theorem c6_capacity (hist batch : List Vec) :
    (update_historic_embeddings hist batch).length ≤ history_range.2 ∧
    (update_historic_embeddings hist batch).length =
      min (hist.length + (unique batch).length) history_range.2 ∧
    List.IsSuffix (update_historic_embeddings hist batch) (hist ++ unique batch) ∧
    ∀ (b : List Vec) (bs : List (List Vec)) (h0 : List Vec),
      (((b :: bs).foldl update_historic_embeddings h0)).length ≤ history_range.2 := by
  refine ⟨update_le_cap hist batch, ?_, ?_, ?_⟩
  · show ((hist ++ unique batch).drop ((hist ++ unique batch).length - history_range.2)).length =
      min (hist.length + (unique batch).length) history_range.2
    rw [List.length_drop, List.length_append]
    omega
  · exact List.drop_suffix _ _
  · intro b bs h0
    rw [List.foldl_cons]
    exact foldl_update_le bs _ (update_le_cap h0 b)

theorem destutter_aux (l : List Vec) :
    ∀ a : Vec, List.destutter' (· ≠ ·) a l = a :: unique_loop a l := by
  induction l with
  | nil => intro a; rfl
  | cons b l ih =>
      intro a
      by_cases hb : b = a
      · subst hb
        rw [List.destutter', if_neg (fun h => h rfl), ih]
        show _ = b :: unique_loop b (b :: l)
        rw [show unique_loop b (b :: l) = unique_loop b l from by rw [unique_loop, if_pos rfl]]
      · rw [List.destutter', if_pos (fun h => hb h.symm), ih]
        show _ = a :: unique_loop a (b :: l)
        rw [show unique_loop a (b :: l) = b :: unique_loop b l from by
          rw [unique_loop, if_neg hb]]

theorem unique_loop_replicate (v : Vec) :
    ∀ n : ℕ, unique_loop v (List.replicate n v) = [] := by
  intro n
  induction n with
  | zero => rfl
  | succ n ih => rw [List.replicate_succ, unique_loop, if_pos rfl, ih]

theorem unique_replicate (n : ℕ) (v : Vec) :
    unique (List.replicate (n + 1) v) = [v] := by
  rw [List.replicate_succ]
  show v :: unique_loop v (List.replicate n v) = [v]
  rw [unique_loop_replicate]

/-- C7: `unique` collapses every run of consecutive equal vectors of the
batch to the run's first element — it agrees with Mathlib's
`destutter (· ≠ ·)` on non-empty batches, which always keeps the head — and
appending a batch of `n + 1` identical vectors therefore adds exactly one
entry to the store (up to the capacity truncation). -/
theorem c7_dedup (e : Vec) (l : List Vec) :
    unique (e :: l) = (e :: l).destutter (· ≠ ·) ∧
    ∀ (n : ℕ) (v : Vec) (hist : List Vec),
      unique (List.replicate (n + 1) v) = [v] ∧
      (update_historic_embeddings hist (List.replicate (n + 1) v)).length =
        min (hist.length + 1) history_range.2 := by
  constructor
  · rw [List.destutter, destutter_aux]
    rfl
  · intro n v hist
    refine ⟨unique_replicate n v, ?_⟩
    show ((hist ++ unique (List.replicate (n + 1) v)).drop
      ((hist ++ unique (List.replicate (n + 1) v)).length - history_range.2)).length = _
    rw [unique_replicate, List.length_drop, List.length_append, List.length_singleton]
    omega

/-- C9: the binarization utility maps a reward to `1.0` exactly when it is
strictly greater than the boundary and to `0.0` otherwise; in particular
`normalize_rewards [0.3, 0.6, 0.5] = [0, 1, 0]` (a reward equal to the
boundary maps to 0). -/
theorem c9_binarize :
    normalize_rewards [(0.3:ℝ), 0.6, 0.5] = [0, 1, 0] ∧
    ∀ (l : List ℝ) (i : ℕ) (d : ℝ), i < l.length →
      (((normalize_rewards l).getD i d = 1 ↔ boundary < l.getD i 0) ∧
       ((normalize_rewards l).getD i d = 0 ↔ ¬ boundary < l.getD i 0)) := by
  constructor
  · norm_num [normalize_rewards, boundary]
  · intro l i d h
    have hlen : i < (normalize_rewards l).length := by
      simpa [normalize_rewards] using h
    rw [List.getD_eq_getElem _ _ hlen, List.getD_eq_getElem _ _ h]
    simp only [normalize_rewards, List.getElem_map]
    by_cases hb : boundary < l[i]
    · simp [hb]
    · simp [hb]

/-- Witness for `c9_binarize` at the list `[0.6]` and index `0`. -/
theorem c9_witness :
    (((normalize_rewards [(0.6:ℝ)]).getD 0 0 = 1 ↔ boundary < ([(0.6:ℝ)]).getD 0 0) ∧
     ((normalize_rewards [(0.6:ℝ)]).getD 0 0 = 0 ↔ ¬ boundary < ([(0.6:ℝ)]).getD 0 0)) :=
  c9_binarize.2 [(0.6:ℝ)] 0 0 (by norm_num)

/-- C10: a batch consisting of one unit-normalized vector always scores the
constant `1 / (1 + e⁴)`: its 1×1 self-similarity matrix is `[[1]]`, the
dissimilarity is `0`, the rank clamps from 2 to 1, and the batch
regulariser maps `0` to `1 / (1 + exp 4)`. -/
theorem c10_single_vector (v : Vec) (h : dot v v = 1) :
    get_batch_rewards [v] = [1 / (1 + Real.exp 4)] := by
  rw [get_batch_rewards]
  norm_num [pairwise_cosine_similarity, cos_sim, h, kth_smallest, reward_bottom_k,
    regularise_batch]

/-- Witness for `c10_single_vector` at the concrete unit vector `[1]`. -/
theorem c10_witness :
    dot [(1:ℝ)] [(1:ℝ)] = 1 ∧ get_batch_rewards [[(1:ℝ)]] = [1 / (1 + Real.exp 4)] :=
  ⟨by norm_num [dot], c10_single_vector [(1:ℝ)] (by norm_num [dot])⟩

theorem length_eq_zero_false {comps : List String} (hne : comps ≠ []) :
    ¬ comps.length = 0 := by
  simpa [List.length_eq_zero] using hne

theorem get_rewards_none (hist : List Vec) (embed : List String → List Vec)
    (comps : List String) (hne : comps ≠ [])
    (hh : get_historic_rewards hist (embed comps) = none) :
    (get_rewards hist embed comps).1 =
      GetRewardsReturn.events
        ((get_batch_rewards (embed comps)).map (fun b => ⟨b, b, none⟩)) := by
  rw [get_rewards, if_neg (length_eq_zero_false hne)]
  show (match get_historic_rewards hist (embed comps) with
    | some hr =>
        (GetRewardsReturn.events
          (List.zipWith (fun b h => DiversityRewardEvent.mk (b * h) b (some h))
            (get_batch_rewards (embed comps)) hr),
         update_historic_embeddings hist (embed comps))
    | none =>
        (GetRewardsReturn.events
          ((get_batch_rewards (embed comps)).map
            (fun b => DiversityRewardEvent.mk b b none)),
         update_historic_embeddings hist (embed comps))).1 = _
  rw [hh]

theorem get_rewards_some (hist : List Vec) (embed : List String → List Vec)
    (comps : List String) (hr : List ℝ) (hne : comps ≠ [])
    (hh : get_historic_rewards hist (embed comps) = some hr) :
    (get_rewards hist embed comps).1 =
      GetRewardsReturn.events
        (List.zipWith (fun b h => ⟨b * h, b, some h⟩)
          (get_batch_rewards (embed comps)) hr) := by
  rw [get_rewards, if_neg (length_eq_zero_false hne)]
  show (match get_historic_rewards hist (embed comps) with
    | some hr =>
        (GetRewardsReturn.events
          (List.zipWith (fun b h => DiversityRewardEvent.mk (b * h) b (some h))
            (get_batch_rewards (embed comps)) hr),
         update_historic_embeddings hist (embed comps))
    | none =>
        (GetRewardsReturn.events
          ((get_batch_rewards (embed comps)).map
            (fun b => DiversityRewardEvent.mk b b none)),
         update_historic_embeddings hist (embed comps))).1 = _
  rw [hh]

theorem historic_none_iff (hist emb : List Vec) :
    get_historic_rewards hist emb = none ↔
      hist.length < history_range.1 + history_reward_bottom_k := by
  rw [get_historic_rewards]
  split
  next h => simpa using h
  next h => simpa using h

/-- C3: each emitted record carries the per-completion batch reward as its
batch component; the combined reward is the batch reward when the historic
component is absent and the product of batch and historic rewards when it
is present; and the historic component is exactly the per-completion
historic reward (or absent). -/
theorem c3_per_record (hist : List Vec) (embed : List String → List Vec)
    (comps : List String) (evs : List DiversityRewardEvent) (d : DiversityRewardEvent)
    (hne : comps ≠ [])
    (hres : (get_rewards hist embed comps).1 = GetRewardsReturn.events evs)
    (i : ℕ) (hi : i < evs.length) :
    (evs.getD i d).batch = (get_batch_rewards (embed comps)).getD i 0 ∧
    (get_historic_rewards hist (embed comps) = none →
      (evs.getD i d).historic = none ∧
      (evs.getD i d).reward = (get_batch_rewards (embed comps)).getD i 0) ∧
    (∀ hr : List ℝ, get_historic_rewards hist (embed comps) = some hr →
      (evs.getD i d).historic = some (hr.getD i 0) ∧
      (evs.getD i d).reward =
        (get_batch_rewards (embed comps)).getD i 0 * hr.getD i 0) := by
  cases hH : get_historic_rewards hist (embed comps) with
  | none =>
      have h1 := get_rewards_none hist embed comps hne hH
      rw [hres] at h1
      have hevs : evs =
          (get_batch_rewards (embed comps)).map
            (fun b => DiversityRewardEvent.mk b b none) := by
        injection h1
      subst hevs
      have hilen : i < (get_batch_rewards (embed comps)).length := by
        simpa using hi
      refine ⟨?_, ?_, ?_⟩
      · rw [List.getD_eq_getElem _ _ hi, List.getD_eq_getElem _ _ hilen]
        simp
      · intro _
        rw [List.getD_eq_getElem _ _ hi, List.getD_eq_getElem _ _ hilen]
        constructor <;> simp
      · intro hr hsome
        exact Option.noConfusion hsome
  | some hr0 =>
      have h1 := get_rewards_some hist embed comps hr0 hne hH
      rw [hres] at h1
      have hevs : evs =
          List.zipWith (fun b h => DiversityRewardEvent.mk (b * h) b (some h))
            (get_batch_rewards (embed comps)) hr0 := by
        injection h1
      subst hevs
      have hiB : i < (get_batch_rewards (embed comps)).length := by
        rw [List.length_zipWith] at hi
        omega
      have hiH : i < hr0.length := by
        rw [List.length_zipWith] at hi
        omega
      refine ⟨?_, ?_, ?_⟩
      · rw [List.getD_eq_getElem _ _ hi, List.getD_eq_getElem _ _ hiB]
        simp
      · intro hnone
        exact Option.noConfusion hnone
      · intro hr hsome
        have hr_eq : hr0 = hr := by injection hsome
        subst hr_eq
        rw [List.getD_eq_getElem _ _ hi, List.getD_eq_getElem _ _ hiB,
          List.getD_eq_getElem _ _ hiH]
        constructor <;> simp

theorem get_batch_rewards_single_e₁ :
    get_batch_rewards [e₁] = [regularise_batch 0] := by
  rw [get_batch_rewards]
  norm_num [pairwise_cosine_similarity, cos_sim, dot, e₁, kth_smallest, reward_bottom_k]

theorem get_rewards_single_eval :
    (get_rewards [] (fun _ => [e₁]) ["a"]).1 =
      GetRewardsReturn.events
        [DiversityRewardEvent.mk (regularise_batch 0) (regularise_batch 0) none] := by
  have h := get_rewards_none [] (fun _ => [e₁]) ["a"] (by simp)
    (by rw [historic_none_iff]; norm_num [history_range, history_reward_bottom_k])
  rw [h, get_batch_rewards_single_e₁]
  rfl

/-- Witness for `c3_per_record`: a concrete one-completion request with
empty history, whose single record has batch component
`regularise_batch 0`. -/
theorem c3_witness :
    (get_rewards [] (fun _ => [e₁]) ["a"]).1 =
      GetRewardsReturn.events
        [DiversityRewardEvent.mk (regularise_batch 0) (regularise_batch 0) none] ∧
    (([DiversityRewardEvent.mk (regularise_batch 0) (regularise_batch 0) none].getD 0
        (DiversityRewardEvent.mk 0 0 none)).batch =
      (get_batch_rewards [e₁]).getD 0 0) := by
  refine ⟨get_rewards_single_eval, ?_⟩
  exact (c3_per_record [] (fun _ => [e₁]) ["a"] _ (DiversityRewardEvent.mk 0 0 none)
    (by simp) get_rewards_single_eval 0 (by simp)).1

/-- C4: the historic reward is `some _` exactly when the store holds at
least `history_range.1 + history_reward_bottom_k = 502` entries at scoring
time, and when the store is smaller every emitted record's historic
component is the distinct absent value `none` (not a zero reward). -/
theorem c4_historic_presence :
    (∀ hist emb : List Vec,
      (get_historic_rewards hist emb).isSome ↔
        history_range.1 + history_reward_bottom_k ≤ hist.length) ∧
    (∀ (hist : List Vec) (embed : List String → List Vec) (comps : List String)
        (evs : List DiversityRewardEvent),
      hist.length < history_range.1 + history_reward_bottom_k →
      (get_rewards hist embed comps).1 = GetRewardsReturn.events evs →
      ∀ e ∈ evs, e.historic = none) := by
  constructor
  · intro hist emb
    rw [Option.isSome_iff_ne_none, Ne, historic_none_iff]
    omega
  · intro hist embed comps evs hlen hres
    rcases eq_or_ne comps [] with hc | hc
    · subst hc
      exact GetRewardsReturn.noConfusion hres
    · have hnone : get_historic_rewards hist (embed comps) = none :=
        (historic_none_iff hist (embed comps)).mpr hlen
      have h1 := get_rewards_none hist embed comps hc hnone
      rw [hres] at h1
      have hevs : evs =
          (get_batch_rewards (embed comps)).map
            (fun b => DiversityRewardEvent.mk b b none) := by
        injection h1
      subst hevs
      intro e he
      rcases List.mem_map.mp he with ⟨b, _, rfl⟩
      rfl

/-- Witness for `c4_historic_presence`: with an empty store the historic
reward is absent, and the concrete one-completion request emits only
records with absent historic component. -/
theorem c4_witness :
    ¬ (get_historic_rewards [] ([] : List Vec)).isSome ∧
    (∀ e ∈ [DiversityRewardEvent.mk (regularise_batch 0) (regularise_batch 0) none],
      e.historic = none) := by
  constructor
  · intro h
    have := (c4_historic_presence.1 [] []).mp h
    norm_num [history_range, history_reward_bottom_k] at this
  · exact c4_historic_presence.2 [] (fun _ => [e₁]) ["a"] _
      (by norm_num [history_range, history_reward_bottom_k])
      get_rewards_single_eval

theorem length_get_batch_rewards (emb : List Vec) :
    (get_batch_rewards emb).length = emb.length := by
  show (((pairwise_cosine_similarity emb emb).map _).map _).length = _
  simp [pairwise_cosine_similarity]

theorem length_get_historic_rewards (hist emb : List Vec) (hr : List ℝ)
    (h : get_historic_rewards hist emb = some hr) : hr.length = emb.length := by
  rw [get_historic_rewards] at h
  by_cases hc : hist.length < history_range.1 + history_reward_bottom_k
  · rw [if_pos hc] at h
    exact Option.noConfusion h
  · rw [if_neg hc] at h
    have h2 : ((pairwise_cosine_similarity emb (hist.drop history_range.1)).map
        (fun row => kth_smallest (row.map (fun s => 1 - |s|))
          (min history_reward_bottom_k
            (pairwise_cosine_similarity emb (hist.drop history_range.1)).length))).map
          regularise_historic = hr := by
      injection h
    have h3 := congrArg List.length h2
    simpa [pairwise_cosine_similarity] using h3.symm

/-- C8: for a non-empty completions list (with the embedder honouring its
one-vector-per-string contract) the emitted list holds exactly one record
per completion, and the `i`-th record's batch component is the `i`-th batch
reward — computed from the `i`-th embedding of the `i`-th completion — so
output order matches input order. -/
theorem c8_one_record_per_completion (hist : List Vec) (embed : List String → List Vec)
    (comps : List String) (evs : List DiversityRewardEvent)
    (hne : comps ≠ []) (hlen : (embed comps).length = comps.length)
    (hres : (get_rewards hist embed comps).1 = GetRewardsReturn.events evs) :
    evs.length = comps.length ∧
    ∀ (i : ℕ) (d : DiversityRewardEvent), i < evs.length →
      (evs.getD i d).batch = (get_batch_rewards (embed comps)).getD i 0 := by
  cases hH : get_historic_rewards hist (embed comps) with
  | none =>
      have h1 := get_rewards_none hist embed comps hne hH
      rw [hres] at h1
      have hevs : evs =
          (get_batch_rewards (embed comps)).map
            (fun b => DiversityRewardEvent.mk b b none) := by
        injection h1
      subst hevs
      refine ⟨by rw [List.length_map, length_get_batch_rewards, hlen], ?_⟩
      intro i d hi
      have hilen : i < (get_batch_rewards (embed comps)).length := by simpa using hi
      rw [List.getD_eq_getElem _ _ hi, List.getD_eq_getElem _ _ hilen]
      simp
  | some hr0 =>
      have h1 := get_rewards_some hist embed comps hr0 hne hH
      rw [hres] at h1
      have hevs : evs =
          List.zipWith (fun b h => DiversityRewardEvent.mk (b * h) b (some h))
            (get_batch_rewards (embed comps)) hr0 := by
        injection h1
      subst hevs
      have hB := length_get_batch_rewards (embed comps)
      have hH0 := length_get_historic_rewards hist (embed comps) hr0 hH
      refine ⟨by rw [List.length_zipWith, hB, hH0, hlen, min_self], ?_⟩
      intro i d hi
      have hiB : i < (get_batch_rewards (embed comps)).length := by
        rw [List.length_zipWith] at hi
        omega
      rw [List.getD_eq_getElem _ _ hi, List.getD_eq_getElem _ _ hiB]
      simp

/-- Witness for `c8_one_record_per_completion`: the concrete one-completion
request yields exactly one record. -/
theorem c8_witness :
    ([DiversityRewardEvent.mk (regularise_batch 0) (regularise_batch 0) none] :
      List DiversityRewardEvent).length = (["a"] : List String).length :=
  (c8_one_record_per_completion [] (fun _ => [e₁]) ["a"] _ (by simp) (by simp [e₁])
    get_rewards_single_eval).1

end Diversity
